import Mathlib

/-!
# Golang-Functions: a shallow embedding

The repository consists of four Go files:

* `main.go`               : `doubleNums`, `double`, `quadrupled`, `transformNums`
* `anonymous/anonymous.go`: `transformNumbers`, `createTransformers`
* `recursion/recursion.go`: `factorial`
* `variadic/variadic.go`  : `sumUp`, `sumUpVariadic`

Go's `int` is modelled as a mathematical integer that every arithmetic
operation reduces to the signed 64-bit range (two's complement wrap-around),
which is what the Go language prescribes for `int` on 64-bit targets.
A `for _, val := range xs` loop is modelled as a left fold over the list.
-/

namespace GoFunctions

/-! ## Machine integers -/

/-- Smallest value of a 64-bit `int`. -/
def minInt : Int := -9223372036854775808

/-- Largest value of a 64-bit `int`. -/
def maxInt : Int := 9223372036854775807

/-- The values a Go `int` can hold. -/
def isInt (x : Int) : Prop := minInt ≤ x ∧ x ≤ maxInt

instance (x : Int) : Decidable (isInt x) := by
  unfold isInt; infer_instance

/-- Two's complement reduction of an exact result to the 64-bit `int` range. -/
def wrap (x : Int) : Int :=
  (x + 9223372036854775808) % 18446744073709551616 - 9223372036854775808

/-- Go's `a + b` on `int`. -/
def addInt (a b : Int) : Int := wrap (a + b)

/-- Go's `a - b` on `int`. -/
def subInt (a b : Int) : Int := wrap (a - b)

/-- Go's `a * b` on `int`. -/
def mulInt (a b : Int) : Int := wrap (a * b)

/-! ## main.go -/

/-- The type `transformFn` of `main.go`: `func(int) int`. -/
abbrev transformFn := Int → Int

/-- The function `double` of `main.go`: `return num*2`. -/
def double (num : Int) : Int := mulInt num 2

/-- The function `quadrupled` of `main.go`: `return num*4`. -/
def quadrupled (num : Int) : Int := mulInt num 4

/-- The function `doubleNums` of `main.go`: start from the empty slice and append
`double(val)` for each `val` of the input, in order. -/
def doubleNums (numbers : List Int) : List Int :=
  numbers.foldl (fun dNums val => dNums ++ [double val]) []

/-- The function `transformNums` of `main.go`: start from the empty slice and
append `transform(val)` for each `val` of the input, in order. -/
def transformNums (nums : List Int) (transform : transformFn) : List Int :=
  nums.foldl (fun tNums val => tNums ++ [transform val]) []

/-! ## anonymous/anonymous.go -/

/-- The function `transformNumbers` of `anonymous.go`: start from the empty slice
and append `transform(val)` for each `val` of the input, in order. -/
def transformNumbers (numbers : List Int) (transform : Int → Int) : List Int :=
  numbers.foldl (fun dNumbers val => dNumbers ++ [transform val]) []

/-- The function `createTransformers` of `anonymous.go`: the returned function
multiplies its argument by the captured `factor`. -/
def createTransformers (factor : Int) : Int → Int :=
  fun number => mulInt number factor

/-! ## recursion/recursion.go -/

/-- The function `factorial` of `recursion.go`. The recursion is not structural
(the argument is a signed machine integer), so the depth of the call stack is
bounded by `fuel`; `none` means that the bound was reached before the base case. -/
def factorial : Nat → Int → Option Int
  | 0, _ => none
  | fuel + 1, num =>
    if num = 0 then some 1
    else
      match factorial fuel (subInt num 1) with
      | none => none
      | some r => some (mulInt num r)

/-! ## variadic/variadic.go -/

/-- The function `sumUp` of `variadic.go`: `sum := 0`, then `sum += val` for each
element. -/
def sumUp (nums : List Int) : Int :=
  nums.foldl (fun sum val => addInt sum val) 0

/-- The function `sumUpVariadic` of `variadic.go`; the variadic parameter is the
slice of the arguments. -/
def sumUpVariadic (nums : List Int) : Int :=
  nums.foldl (fun sum val => addInt sum val) 0

/-! ### Closures with an explicit store

Go closures capture variables by reference. To state that two closures do not
interfere, the captured variables are kept in an explicit store that is threaded
through creation and invocation. -/

/-- The captured variables: one cell for each call of `createTransformers`,
holding that call's parameter `factor`. -/
abbrev Store := List Int

/-- A function value returned by `createTransformers`: a reference to the cell
that holds its captured `factor`. -/
structure Closure where
  factorRef : Nat
deriving DecidableEq, Repr

/-- Store-passing `createTransformers`: each call has its own variable `factor`,
initialised with the argument; the returned closure refers to that variable. -/
def createTransformersS (σ : Store) (factor : Int) : Store × Closure :=
  (σ ++ [factor], ⟨σ.length⟩)

/-- Invocation of a closure of `createTransformers`: the body
`return number * factor` reads the captured variable and assigns nothing. -/
def callClosure (σ : Store) (f : Closure) (number : Int) : Option (Store × Int) :=
  match σ[f.factorRef]? with
  | none => none
  | some factor => some (σ, mulInt number factor)

/-! ### The chain of arguments of `factorial` -/

/-- The argument of the `k`-th nested call that `factorial(num)` makes when no
base case stops it earlier: the call on `num` is number 0, and every call that
is not a base case passes `num - 1` on. -/
def factorialArg (num : Int) : Nat → Int
  | 0 => num
  | k + 1 => factorialArg (subInt num 1) k

/-- An upper bound on the depth of a call stack: a 64-bit address space has
`2^64` bytes and every frame of `factorial` holds at least its 8-byte argument,
so fewer than `2^63` frames can be live at once. The Go runtime stops far
earlier, at its stack limit, with a stack overflow. -/
def maxStackDepth : Nat := 9223372036854775808

/-! ### Slices in memory

To state what a call writes, slices are kept in an explicit memory: a slice
value is a reference to a backing array, and `*[]int` is a reference to a slice
variable. -/

/-- A slice value: the address of its backing array and its length. Its capacity
is the length of the backing array. -/
structure Slice where
  arr : Nat
  len : Nat
deriving DecidableEq, Repr

/-- The memory: the backing arrays, by address, and the slice variables that a
`*[]int` can point to. -/
structure Memory where
  arrays : List (List Int)
  slices : List Slice
deriving DecidableEq, Repr

/-- The backing array of a slice. -/
def backing (m : Memory) (s : Slice) : List Int :=
  (m.arrays[s.arr]?).getD []

/-- The sequence that a slice denotes: the first `len` cells of its backing array. -/
def sliceElems (m : Memory) (s : Slice) : List Int :=
  (backing m s).take s.len

/-- A well-formed slice: its backing array exists and has at least `len` cells. -/
def validSlice (m : Memory) (s : Slice) : Prop :=
  s.arr < m.arrays.length ∧ s.len ≤ (backing m s).length

instance (m : Memory) (s : Slice) : Decidable (validSlice m s) := by
  unfold validSlice; infer_instance

/-- The literal `[]int{}`: a new slice of length 0 and capacity 0. -/
def emptySlice (m : Memory) : Memory × Slice :=
  ({ m with arrays := m.arrays ++ [[]] }, ⟨m.arrays.length, 0⟩)

/-- Go's `append(s, v)`: if the capacity allows, `v` is written into the backing
array of `s` right after its elements; otherwise a new backing array is
allocated, the elements are copied and `v` is put after them. How many spare
cells the new array gets is left to the runtime: `grow` maps the old capacity to
that number. -/
def appendSlice (grow : Nat → Nat) (m : Memory) (s : Slice) (v : Int) : Memory × Slice :=
  if s.len < (backing m s).length then
    ({ m with arrays := m.arrays.set s.arr ((backing m s).set s.len v) }, ⟨s.arr, s.len + 1⟩)
  else
    ({ m with arrays := m.arrays ++
        [sliceElems m s ++ [v] ++ List.replicate (grow (backing m s).length) 0] },
      ⟨m.arrays.length, s.len + 1⟩)

/-- One iteration, at index `i`, of a loop
`for _, val := range *nums { out = append(out, transform(val)) }`: `val` is read
from the backing array of the slice `s` that `*nums` gave when the loop started,
and `transform(val)` is appended to `out`. `none` is a run-time panic. -/
def transformStep (grow : Nat → Nat) (transform : Int → Int) (s : Slice)
    (st : Option (Memory × Slice)) (i : Nat) : Option (Memory × Slice) :=
  match st with
  | none => none
  | some (m, out) =>
    match (backing m s)[i]? with
    | none => none
    | some val => some (appendSlice grow m out (transform val))

/-- The function `transformNums` of `main.go` on the memory: `tNums := []int{}`,
then the loop over `*nums`; the result is the final memory and the slice
returned. `none` is a run-time panic (`nums` points to no slice variable). -/
def transformNumsM (grow : Nat → Nat) (m : Memory) (nums : Nat) (transform : transformFn) :
    Option (Memory × Slice) :=
  match m.slices[nums]? with
  | none => none
  | some s => (List.range s.len).foldl (transformStep grow transform s) (some (emptySlice m))

/-- The function `transformNumbers` of `anonymous.go` on the memory:
`dNumbers := []int{}`, then the loop over `*numbers`. -/
def transformNumbersM (grow : Nat → Nat) (m : Memory) (numbers : Nat)
    (transform : Int → Int) : Option (Memory × Slice) :=
  match m.slices[numbers]? with
  | none => none
  | some s => (List.range s.len).foldl (transformStep grow transform s) (some (emptySlice m))

/-! ## Arithmetic of `wrap` -/

theorem wrap_of_isInt {x : Int} (h : isInt x) : wrap x = x := by
  unfold isInt minInt maxInt at h
  unfold wrap
  omega

theorem isInt_wrap (x : Int) : isInt (wrap x) := by
  unfold isInt minInt maxInt wrap
  omega

theorem wrap_wrap (x : Int) : wrap (wrap x) = wrap x :=
  wrap_of_isInt (isInt_wrap x)

theorem wrap_eq_sub (x : Int) : ∃ q : Int, wrap x = x - 18446744073709551616 * q :=
  ⟨(x + 9223372036854775808) / 18446744073709551616, by unfold wrap; omega⟩

theorem wrap_sub_mul (x q : Int) : wrap (x - 18446744073709551616 * q) = wrap x := by
  unfold wrap
  omega

theorem wrap_add_wrap_left (a b : Int) : wrap (wrap a + b) = wrap (a + b) := by
  unfold wrap
  omega

theorem wrap_mul_wrap_right (a b : Int) : wrap (a * wrap b) = wrap (a * b) := by
  obtain ⟨q, hq⟩ := wrap_eq_sub b
  have h : a * (b - 18446744073709551616 * q) = a * b - 18446744073709551616 * (a * q) := by
    ring
  rw [hq, h, wrap_sub_mul]

/-! ## The loops as list functions -/

theorem foldl_append_singleton (f : Int → Int) (xs acc : List Int) :
    xs.foldl (fun out val => out ++ [f val]) acc = acc ++ xs.map f := by
  induction xs generalizing acc with
  | nil => simp
  | cons x xs ih => simp [ih]

theorem transformNums_eq_map (S : List Int) (f : Int → Int) :
    transformNums S f = S.map f := by
  simp [transformNums, foldl_append_singleton]

theorem transformNumbers_eq_map (S : List Int) (f : Int → Int) :
    transformNumbers S f = S.map f := by
  simp [transformNumbers, foldl_append_singleton]

theorem foldl_add_eq (xs : List Int) (a : Int) :
    xs.foldl (fun s v => s + v) a = a + xs.sum := by
  induction xs generalizing a with
  | nil => simp
  | cons x xs ih => simp [ih, add_assoc]

theorem foldl_addInt_eq (xs : List Int) (a : Int) (ha : isInt a) :
    xs.foldl (fun sum val => addInt sum val) a = wrap (a + xs.sum) := by
  induction xs generalizing a with
  | nil => simp [wrap_of_isInt ha]
  | cons x xs ih =>
    have hx : isInt (addInt a x) := isInt_wrap _
    rw [List.foldl_cons, ih _ hx, List.sum_cons]
    unfold addInt
    rw [wrap_add_wrap_left, add_assoc]

theorem sumUp_eq_wrap_sum (S : List Int) : sumUp S = wrap S.sum := by
  have h := foldl_addInt_eq S 0 (by decide)
  simpa [sumUp] using h

theorem sumUpVariadic_eq_wrap_sum (S : List Int) : sumUpVariadic S = wrap S.sum := by
  have h := foldl_addInt_eq S 0 (by decide)
  simpa [sumUpVariadic] using h

/-! ## The store of captured variables -/

theorem store_lookup_fresh (σ : Store) (k : Int) :
    (createTransformersS σ k).1[(createTransformersS σ k).2.factorRef]? = some k := by
  simp [createTransformersS]

theorem store_lookup_earlier (σ : Store) (k1 k2 : Int) :
    (createTransformersS (createTransformersS σ k1).1 k2).1[
      (createTransformersS σ k1).2.factorRef]? = some k1 := by
  simp only [createTransformersS]
  rw [List.getElem?_append_left (by simp)]
  simp

/-! ## The recursion of `factorial` -/

theorem factorial_nat (n : Nat) (hn : (n : Int) ≤ maxInt) (fuel : Nat) (hf : n < fuel) :
    factorial fuel (n : Int) = some (wrap (n.factorial : Int)) := by
  induction n generalizing fuel with
  | zero =>
    obtain ⟨k, rfl⟩ : ∃ k, fuel = k + 1 := ⟨fuel - 1, by omega⟩
    simp [factorial]
    decide
  | succ n ih =>
    obtain ⟨k, rfl⟩ : ∃ k, fuel = k + 1 := ⟨fuel - 1, by omega⟩
    have hn1 : (n : Int) ≤ maxInt := by push_cast at hn; omega
    have hsub : subInt ((n + 1 : Nat) : Int) 1 = (n : Int) := by
      unfold subInt
      have : ((n + 1 : Nat) : Int) - 1 = (n : Int) := by push_cast; ring
      rw [this]
      apply wrap_of_isInt
      unfold isInt minInt
      constructor
      · omega
      · exact hn1
    have hne : ((n + 1 : Nat) : Int) ≠ 0 := by push_cast; omega
    rw [factorial, if_neg hne, hsub, ih hn1 k (by omega)]
    simp only [mulInt]
    rw [wrap_mul_wrap_right, Nat.factorial_succ]
    push_cast
    rfl

theorem factorial_small_isInt (n : Nat) (hn : n ≤ 20) : isInt (n.factorial : Int) := by
  have h : n.factorial ≤ Nat.factorial 20 := Nat.factorial_le hn
  have h20 : Nat.factorial 20 = 2432902008176640000 := by decide
  rw [h20] at h
  unfold isInt minInt maxInt
  constructor <;> omega

theorem factorial_21 : factorial 22 21 = some (-4249290049419214848) := by
  have h := factorial_nat 21 (by decide) 22 (by decide)
  have h21 : Nat.factorial 21 = 51090942171709440000 := by decide
  rw [h21] at h
  exact h

/-! ## Claims -/

/-- Claim C1: for every sequence `S` and transform `f`, `transformNums` and
`transformNumbers` return a sequence of the length of `S` whose element at every
position `i` is `f (S[i])` (and that has no element where `S` has none). -/
theorem transform_length_and_elements (S : List Int) (f : Int → Int) :
    (transformNums S f).length = S.length ∧
    (transformNumbers S f).length = S.length ∧
    ∀ i : Nat, (transformNums S f)[i]? = (S[i]?).map f ∧
      (transformNumbers S f)[i]? = (S[i]?).map f := by
  rw [transformNums_eq_map, transformNumbers_eq_map]
  refine ⟨List.length_map _ _, List.length_map _ _, fun i => ?_⟩
  simp

/-- Claim C2, as stated, fails: `21` is a non-negative `int`, and `factorial(21)`
returns `-4249290049419214848`, which is not `21!`. -/
theorem factorial_21_not_exact :
    isInt 21 ∧ factorial 22 21 = some (-4249290049419214848) ∧
    factorial 22 21 ≠ some ((Nat.factorial 21 : Nat) : Int) := by
  refine ⟨by decide, factorial_21, ?_⟩
  rw [factorial_21]
  have h21 : Nat.factorial 21 = 51090942171709440000 := by decide
  rw [h21]
  decide

/-- Claim C2, amended: for every non-negative `int` `n`, `factorial(n)` returns
(given a call stack deeper than `n`) `n!` reduced to the signed 64-bit range, and
for `n ≤ 20` that is `n!` itself. -/
theorem factorial_wrapped_and_exact_up_to_20 (n : Nat) (hn : (n : Int) ≤ maxInt)
    (fuel : Nat) (hf : n < fuel) :
    factorial fuel (n : Int) = some (wrap (n.factorial : Int)) ∧
    (n ≤ 20 → factorial fuel (n : Int) = some (n.factorial : Int)) := by
  have h := factorial_nat n hn fuel hf
  refine ⟨h, fun h20 => ?_⟩
  rw [h, wrap_of_isInt (factorial_small_isInt n h20)]

theorem factorial_wrapped_and_exact_up_to_20_witness :
    ((20 : Nat) : Int) ≤ maxInt ∧ 20 < 21 ∧
    factorial 21 ((20 : Nat) : Int) = some ((Nat.factorial 20 : Nat) : Int) :=
  ⟨by decide, by decide,
    (factorial_wrapped_and_exact_up_to_20 20 (by decide) 21 (by decide)).2 (by decide)⟩

/-- Claim C3: `factorial(0) == 1`, `factorial(5) == 120` and
`factorial(9) == 362880`, for every call stack deep enough for the recursion. -/
theorem factorial_examples (k : Nat) :
    factorial (k + 1) 0 = some 1 ∧ factorial (k + 6) 5 = some 120 ∧
    factorial (k + 10) 9 = some 362880 := by
  have h0 := factorial_nat 0 (by decide) (k + 1) (by omega)
  have h5 := factorial_nat 5 (by decide) (k + 6) (by omega)
  have h9 := factorial_nat 9 (by decide) (k + 10) (by omega)
  have e0 : wrap ((Nat.factorial 0 : Nat) : Int) = 1 := by decide
  have e5 : wrap ((Nat.factorial 5 : Nat) : Int) = 120 := by decide
  have e9 : wrap ((Nat.factorial 9 : Nat) : Int) = 362880 := by decide
  rw [e0] at h0
  rw [e5] at h5
  rw [e9] at h9
  exact ⟨h0, h5, h9⟩

/-- Claim C4, as stated, fails: on the slice `[9223372036854775807, 1]` of two
`int` values, `sumUp` returns `-9223372036854775808`, not the sum
`foldl (+) 0` of the elements. -/
theorem sumUp_overflow_not_exact :
    isInt 9223372036854775807 ∧ isInt 1 ∧
    sumUp [9223372036854775807, 1] = -9223372036854775808 ∧
    sumUp [9223372036854775807, 1] ≠
      [9223372036854775807, 1].foldl (fun s v => s + v) 0 := by
  decide

/-- Claim C4, amended: `sumUp(S)` is the single left-to-right pass from zero with
Go's wrapping addition, and it returns the sum `foldl (+) 0 S` reduced to the
signed 64-bit range; it is that sum itself whenever the sum is an `int`. -/
theorem sumUp_wrapped_fold (S : List Int) :
    sumUp S = S.foldl addInt 0 ∧
    sumUp S = wrap (S.foldl (fun s v => s + v) 0) ∧
    (isInt (S.foldl (fun s v => s + v) 0) → sumUp S = S.foldl (fun s v => s + v) 0) := by
  have h : sumUp S = wrap (S.foldl (fun s v => s + v) 0) := by
    rw [sumUp_eq_wrap_sum, foldl_add_eq, zero_add]
  refine ⟨rfl, h, fun hS => ?_⟩
  rw [h, wrap_of_isInt hS]

theorem sumUp_wrapped_fold_witness :
    isInt ([1, 2, 2, 2].foldl (fun s v => s + v) 0) ∧
    sumUp [1, 2, 2, 2] = [1, 2, 2, 2].foldl (fun s v => s + v) 0 :=
  ⟨by decide, (sumUp_wrapped_fold [1, 2, 2, 2]).2.2 (by decide)⟩

/-- Claim C5: the three summation examples: `sumUp([1,2,2,2]) == 7`,
`sumUpVariadic(1,2,3,4,5,6) == 21` and
`sumUpVariadic(2,55,66,7,8,1,1,1,25) == 166`. -/
theorem summation_examples :
    sumUp [1, 2, 2, 2] = 7 ∧ sumUpVariadic [1, 2, 3, 4, 5, 6] = 21 ∧
    sumUpVariadic [2, 55, 66, 7, 8, 1, 1, 1, 25] = 166 := by
  decide

/-- Claim C6: `sumUp` applied to a slice and `sumUpVariadic` applied to the same
values as arguments return the same result. -/
theorem sumUp_eq_sumUpVariadic (S : List Int) : sumUp S = sumUpVariadic S := by
  rw [sumUp_eq_wrap_sum, sumUpVariadic_eq_wrap_sum]

/-- Claim C7, as stated, fails: for the `int` values `k = 2` and
`n = 4611686018427387904` the function returned by `createTransformers(k)` returns
`-9223372036854775808` on `n`, not `n * k`. -/
theorem createTransformers_overflow_not_exact :
    isInt 2 ∧ isInt 4611686018427387904 ∧
    createTransformers 2 4611686018427387904 = -9223372036854775808 ∧
    createTransformers 2 4611686018427387904 ≠ 4611686018427387904 * 2 := by
  decide

/-- Claim C7, amended: the function returned by `createTransformers(k)` applied to
`n` returns `n * k` reduced to the signed 64-bit range; it returns `n * k` itself
whenever `n * k` is an `int`. -/
theorem createTransformers_wrapped_product (k n : Int) :
    createTransformers k n = wrap (n * k) ∧
    (isInt (n * k) → createTransformers k n = n * k) :=
  ⟨rfl, fun h => wrap_of_isInt h⟩

theorem createTransformers_wrapped_product_witness :
    isInt (7 * 3) ∧ createTransformers 3 7 = 7 * 3 :=
  ⟨by decide, (createTransformers_wrapped_product 3 7).2 (by decide)⟩

/-- Claim C8: closures of `createTransformers` are independent. With `f1` created
for `k1` and then `f2` for `k2` (in particular for `k1 ≠ k2`), each invocation
leaves the store of captured variables as it was, `f1(n)` returns the same result
after an invocation `f2(m)` as without it, symmetrically for `f2`, and each closure
answers with its own factor. -/
theorem closures_independent (σ : Store) (k1 k2 n m : Int) :
    let c1 := createTransformersS σ k1
    let c2 := createTransformersS c1.1 k2
    callClosure c2.1 c1.2 n = some (c2.1, createTransformers k1 n) ∧
    callClosure c2.1 c2.2 m = some (c2.1, createTransformers k2 m) ∧
    ((callClosure c2.1 c2.2 m).bind fun r => callClosure r.1 c1.2 n) =
      callClosure c2.1 c1.2 n ∧
    ((callClosure c2.1 c1.2 n).bind fun r => callClosure r.1 c2.2 m) =
      callClosure c2.1 c2.2 m := by
  intro c1 c2
  have h1 : callClosure c2.1 c1.2 n = some (c2.1, createTransformers k1 n) := by
    have hl : c2.1[c1.2.factorRef]? = some k1 := store_lookup_earlier σ k1 k2
    simp only [callClosure, hl, createTransformers]
  have h2 : callClosure c2.1 c2.2 m = some (c2.1, createTransformers k2 m) := by
    have hl : c2.1[c2.2.factorRef]? = some k2 := store_lookup_fresh c1.1 k2
    simp only [callClosure, hl, createTransformers]
  refine ⟨h1, h2, ?_, ?_⟩
  · rw [h2, Option.some_bind, h1]
  · rw [h1, Option.some_bind, h2]

/-- Claim C9: for every sequence `S` of `int` values, transforming `S` with the
transform obtained from factor 1 returns `S`. -/
theorem transform_factor_one (S : List Int) (hS : ∀ x ∈ S, isInt x) :
    transformNumbers S (createTransformers 1) = S := by
  rw [transformNumbers_eq_map]
  conv_rhs => rw [← List.map_id S]
  apply List.map_congr_left
  intro x hx
  simp only [createTransformers, mulInt, mul_one, id]
  exact wrap_of_isInt (hS x hx)

theorem transform_factor_one_witness :
    (∀ x ∈ ([1, 2, 3] : List Int), isInt x) ∧
    transformNumbers [1, 2, 3] (createTransformers 1) = [1, 2, 3] :=
  ⟨by decide, transform_factor_one [1, 2, 3] (by decide)⟩

/-- Claim C10: for every sequence `S` and every permutation `S'` of `S`,
`sumUp(S') == sumUp(S)`, and likewise for `sumUpVariadic`. -/
theorem sumUp_perm (S S' : List Int) (h : S'.Perm S) :
    sumUp S' = sumUp S ∧ sumUpVariadic S' = sumUpVariadic S := by
  rw [sumUp_eq_wrap_sum, sumUp_eq_wrap_sum, sumUpVariadic_eq_wrap_sum,
    sumUpVariadic_eq_wrap_sum, h.sum_eq]
  exact ⟨rfl, rfl⟩

theorem sumUp_perm_witness :
    List.Perm [3, 1, 2] ([1, 2, 3] : List Int) ∧
    sumUp [3, 1, 2] = sumUp [1, 2, 3] ∧ sumUpVariadic [3, 1, 2] = sumUpVariadic [1, 2, 3] :=
  ⟨by decide, sumUp_perm [1, 2, 3] [3, 1, 2] (by decide)⟩

/-! ## More on `wrap` and on the chain of arguments -/

theorem wrap_mul_wrap_left (a b : Int) : wrap (wrap a * b) = wrap (a * b) := by
  rw [mul_comm, wrap_mul_wrap_right, mul_comm]

theorem wrap_add_wrap_right (a b : Int) : wrap (a + wrap b) = wrap (a + b) := by
  rw [add_comm, wrap_add_wrap_left, add_comm]

theorem wrap_le_maxInt (x : Int) : wrap x ≤ maxInt := (isInt_wrap x).2

theorem factorialArg_eq (num : Int) (h : isInt num) (k : Nat) :
    factorialArg num k = wrap (num - k) := by
  induction k generalizing num with
  | zero => simp [factorialArg, wrap_of_isInt h]
  | succ k ih =>
    have hs : isInt (subInt num 1) := isInt_wrap _
    rw [factorialArg, ih _ hs]
    unfold subInt wrap
    push_cast
    omega

theorem factorial_isSome_iff (fuel : Nat) (num : Int) :
    (factorial fuel num).isSome = true ↔ ∃ k : Nat, k < fuel ∧ factorialArg num k = 0 := by
  induction fuel generalizing num with
  | zero => simp [factorial]
  | succ fuel ih =>
    by_cases h0 : num = 0
    · subst h0
      simp only [factorial, if_true, Option.isSome_some, true_iff]
      exact ⟨0, by omega, rfl⟩
    · have hstep : (factorial (fuel + 1) num).isSome = (factorial fuel (subInt num 1)).isSome := by
        rw [factorial, if_neg h0]
        cases factorial fuel (subInt num 1) <;> rfl
      rw [hstep, ih]
      constructor
      · rintro ⟨k, hk, hz⟩
        exact ⟨k + 1, by omega, hz⟩
      · rintro ⟨k, hk, hz⟩
        cases k with
        | zero => exact absurd hz h0
        | succ k => exact ⟨k, by omega, hz⟩

theorem factorial_eq_none_iff (fuel : Nat) (num : Int) :
    factorial fuel num = none ↔ ∀ k : Nat, k < fuel → factorialArg num k ≠ 0 := by
  have h := factorial_isSome_iff fuel num
  constructor
  · intro hn k hk hz
    have : (factorial fuel num).isSome = true := h.2 ⟨k, hk, hz⟩
    rw [hn] at this
    exact absurd this (by simp)
  · intro hall
    cases hf : factorial fuel num with
    | none => rfl
    | some r =>
      have hs : (factorial fuel num).isSome = true := by rw [hf]; rfl
      obtain ⟨k, hk, hz⟩ := h.1 hs
      exact absurd hz (hall k hk)

theorem factorialArg_negative_ne_zero (n : Int) (hn : isInt n) (hneg : n < 0) (k : Nat)
    (hk : (k : Int) < 18446744073709551616 + n) : factorialArg n k ≠ 0 := by
  rw [factorialArg_eq n hn]
  unfold isInt minInt maxInt at hn
  unfold wrap
  omega

theorem factorialArg_nonneg (n : Nat) (hn : (n : Int) ≤ maxInt) (k : Nat) (hk : k ≤ n) :
    factorialArg (n : Int) k = (n : Int) - (k : Int) := by
  have hi : isInt (n : Int) := by
    unfold isInt minInt
    exact ⟨by omega, hn⟩
  rw [factorialArg_eq _ hi]
  apply wrap_of_isInt
  unfold isInt minInt maxInt
  unfold maxInt at hn
  omega

/-! ## More on the loops -/

theorem doubleNums_eq_map (S : List Int) : doubleNums S = S.map double := by
  simp [doubleNums, foldl_append_singleton]

theorem sumUp_isInt (S : List Int) : isInt (sumUp S) := by
  rw [sumUp_eq_wrap_sum]
  exact isInt_wrap _

theorem sumUp_append (S : List Int) (x : Int) : sumUp (S ++ [x]) = addInt (sumUp S) x := by
  simp [sumUp, List.foldl_append]

theorem wrap_sum_map_wrap (g : Int → Int) (S : List Int) :
    wrap ((S.map fun n => wrap (g n)).sum) = wrap ((S.map g).sum) := by
  induction S with
  | nil => rfl
  | cons x xs ih =>
    simp only [List.map_cons, List.sum_cons]
    rw [wrap_add_wrap_left, ← wrap_add_wrap_right, ih, wrap_add_wrap_right]

theorem factorial_large_not_isInt (n : Nat) (hn : 21 ≤ n) : maxInt < (n.factorial : Int) := by
  have h : Nat.factorial 21 ≤ n.factorial := Nat.factorial_le hn
  have h21 : Nat.factorial 21 = 51090942171709440000 := by decide
  rw [h21] at h
  unfold maxInt
  omega

/-! ## Claims, continued -/

/-- Claim C12: empty input sums to zero for both entry points: `sumUp([]) == 0`
and `sumUpVariadic()` without arguments `== 0`. -/
theorem sum_of_empty : sumUp [] = 0 ∧ sumUpVariadic [] = 0 :=
  ⟨rfl, rfl⟩

/-- Claim C13: `factorial` fails to terminate on every negative input. For every
negative `int` `n` the recursive arguments are `n, n-1, n-2, ...` down to the
smallest `int`, no argument is the base case `0` at any depth that a call stack
can have, and `factorial(n)` returns for no such stack: the recursion always
runs into the bound of the stack. -/
theorem factorial_negative_never_returns (n : Int) (hn : isInt n) (hneg : n < 0) :
    (∀ k : Nat, (k : Int) ≤ n - minInt → factorialArg n k = n - (k : Int)) ∧
    (∀ k : Nat, k < maxStackDepth → factorialArg n k ≠ 0) ∧
    (∀ fuel : Nat, fuel ≤ maxStackDepth → factorial fuel n = none) := by
  have hlow : minInt ≤ n := hn.1
  unfold minInt at hlow
  refine ⟨fun k hk => ?_, fun k hk => ?_, fun fuel hfuel => ?_⟩
  · rw [factorialArg_eq n hn]
    apply wrap_of_isInt
    unfold isInt maxInt
    unfold minInt at hk ⊢
    omega
  · unfold maxStackDepth at hk
    exact factorialArg_negative_ne_zero n hn hneg k (by omega)
  · unfold maxStackDepth at hfuel
    rw [factorial_eq_none_iff]
    intro k hk
    exact factorialArg_negative_ne_zero n hn hneg k (by omega)

theorem factorial_negative_never_returns_witness :
    isInt (-5) ∧ (-5 : Int) < 0 ∧ factorialArg (-5) 3 = -5 - 3 ∧
    factorialArg (-5) 1000000 ≠ 0 ∧ factorial 1000 (-5) = none :=
  ⟨by decide, by decide,
    (factorial_negative_never_returns (-5) (by decide) (by decide)).1 3 (by decide),
    (factorial_negative_never_returns (-5) (by decide) (by decide)).2.1 1000000 (by decide),
    (factorial_negative_never_returns (-5) (by decide) (by decide)).2.2 1000 (by decide)⟩

/-- Claim C14: for every non-negative `int` `n` the recursion of `factorial` is
well-founded: the argument of the `k`-th nested call is `n - k`, it strictly
decreases, it is `0` for the first time at call number `n`, and `factorial(n)`
returns a value exactly when the call stack may be deeper than `n`. -/
theorem factorial_nonneg_terminates (n : Nat) (hn : (n : Int) ≤ maxInt) :
    (∀ k : Nat, k ≤ n → factorialArg (n : Int) k = (n : Int) - (k : Int)) ∧
    (∀ k : Nat, k < n → factorialArg (n : Int) (k + 1) < factorialArg (n : Int) k) ∧
    (∀ k : Nat, k < n → factorialArg (n : Int) k ≠ 0) ∧
    factorialArg (n : Int) n = 0 ∧
    (∀ fuel : Nat, n < fuel → ∃ r, factorial fuel (n : Int) = some r) ∧
    (∀ fuel : Nat, fuel ≤ n → factorial fuel (n : Int) = none) := by
  have harg := factorialArg_nonneg n hn
  refine ⟨harg, fun k hk => ?_, fun k hk => ?_, ?_, fun fuel hf => ?_, fun fuel hf => ?_⟩
  · rw [harg k (by omega), harg (k + 1) (by omega)]
    push_cast
    omega
  · rw [harg k (by omega)]
    omega
  · rw [harg n (le_refl n)]
    omega
  · exact ⟨_, factorial_nat n hn fuel hf⟩
  · rw [factorial_eq_none_iff]
    intro k hk
    rw [harg k (by omega)]
    omega

theorem factorial_nonneg_terminates_witness :
    ((5 : Nat) : Int) ≤ maxInt ∧ factorialArg ((5 : Nat) : Int) 5 = 0 ∧
    ∃ r, factorial 6 ((5 : Nat) : Int) = some r :=
  ⟨by decide, (factorial_nonneg_terminates 5 (by decide)).2.2.2.1,
    (factorial_nonneg_terminates 5 (by decide)).2.2.2.2.1 6 (by decide)⟩

/-- Claim C15, as stated, fails: with `S = []` and the `int` `x = -1` the
accumulator goes down, `sumUp(S ++ [x]) = -1 < 0 = sumUp(S)`; and with
`S = [9223372036854775807]` and `x = 1` the addition wraps around, so the
accumulator goes down although `x` is positive. -/
theorem sumUp_not_monotone :
    isInt (-1) ∧ sumUp ([] ++ [-1]) = -1 ∧ sumUp [] = 0 ∧
    ¬ (sumUp ([] ++ [-1]) ≥ sumUp []) ∧
    isInt 9223372036854775807 ∧ isInt 1 ∧
    ¬ (sumUp ([9223372036854775807] ++ [1]) ≥ sumUp [9223372036854775807]) := by
  decide

/-- Claim C15, amended: the summation accumulator starts at zero and is updated by
Go's wrapping addition, `sumUp(S ++ [x]) = sumUp(S) + x` reduced to the signed
64-bit range; `sumUp(S ++ [x]) >= sumUp(S)` holds whenever `x` is not negative and
`sumUp(S) + x` does not exceed the largest `int`. -/
theorem sumUp_append_singleton (S : List Int) (x : Int) :
    sumUp [] = 0 ∧ sumUp (S ++ [x]) = addInt (sumUp S) x ∧
    (0 ≤ x → sumUp S + x ≤ maxInt → sumUp (S ++ [x]) ≥ sumUp S) := by
  refine ⟨rfl, sumUp_append S x, fun hx hmax => ?_⟩
  have hS := sumUp_isInt S
  have hin : isInt (sumUp S + x) := by
    unfold isInt at hS ⊢
    exact ⟨by omega, hmax⟩
  rw [sumUp_append, addInt, wrap_of_isInt hin]
  omega

theorem sumUp_append_singleton_witness :
    (0 : Int) ≤ 2 ∧ sumUp [1, 2, 2] + 2 ≤ maxInt ∧
    sumUp ([1, 2, 2] ++ [2]) ≥ sumUp [1, 2, 2] :=
  ⟨by decide, by decide,
    (sumUp_append_singleton [1, 2, 2] 2).2.2 (by decide) (by decide)⟩

/-- Claim C16: for every sequence `S`, `doubleNums(S)` equals
`transformNums(S, double)`, and both equal
`transformNumbers(S, createTransformers(2))`. -/
theorem doubleNums_is_transform_double (S : List Int) :
    doubleNums S = transformNums S double ∧
    doubleNums S = transformNumbers S (createTransformers 2) ∧
    transformNums S double = transformNumbers S (createTransformers 2) := by
  have hd : createTransformers 2 = double := rfl
  rw [doubleNums_eq_map, transformNums_eq_map, transformNumbers_eq_map, hd]
  exact ⟨rfl, rfl, rfl⟩

/-- Claim C17: successive multiplier transforms compose by multiplying the
factors, with Go's wrapping multiplication throughout (the factor `a*b` taken as
Go computes it, or as the exact product); in particular
`transformNums(S, quadrupled)` equals `doubleNums(doubleNums(S))`. -/
theorem transform_compose (a b : Int) (S : List Int) :
    transformNumbers (transformNumbers S (createTransformers a)) (createTransformers b) =
      transformNumbers S (createTransformers (mulInt a b)) ∧
    transformNumbers (transformNumbers S (createTransformers a)) (createTransformers b) =
      transformNumbers S (createTransformers (a * b)) ∧
    transformNums S quadrupled = doubleNums (doubleNums S) := by
  simp only [transformNumbers_eq_map, transformNums_eq_map, doubleNums_eq_map, List.map_map]
  refine ⟨?_, ?_, ?_⟩
  · apply List.map_congr_left
    intro n _
    simp only [Function.comp, createTransformers, mulInt]
    rw [wrap_mul_wrap_left, wrap_mul_wrap_right, mul_assoc]
  · apply List.map_congr_left
    intro n _
    simp only [Function.comp, createTransformers, mulInt]
    rw [wrap_mul_wrap_left, mul_assoc]
  · apply List.map_congr_left
    intro n _
    simp only [Function.comp, quadrupled, double, mulInt]
    rw [wrap_mul_wrap_left, mul_assoc]
    rfl

/-- Claim C18: for every factor `k` and sequence `S`,
`sumUp(transformNumbers(S, createTransformers(k)))` equals `k * sumUp(S)`, all
additions and multiplications being Go's wrapping ones. -/
theorem sumUp_transform_linear (k : Int) (S : List Int) :
    sumUp (transformNumbers S (createTransformers k)) = mulInt k (sumUp S) := by
  have hf : createTransformers k = fun n => wrap (n * k) := rfl
  rw [transformNumbers_eq_map, sumUp_eq_wrap_sum, sumUp_eq_wrap_sum, hf,
    wrap_sum_map_wrap (fun n => n * k) S, mulInt, wrap_mul_wrap_right,
    List.sum_map_mul_right, mul_comm, List.map_id']

/-- Claim C19: with the 64-bit wrapping `int`, for every non-negative `int` `n`
the value returned by `factorial(n)` is the mathematical `n!` if and only if
`n ≤ 20`; for `n = 21` the returned value, `-4249290049419214848`, is not `21!`. -/
theorem factorial_exact_iff_le_20 (n : Nat) (hn : (n : Int) ≤ maxInt) (fuel : Nat)
    (hf : n < fuel) :
    (factorial fuel (n : Int) = some (n.factorial : Int) ↔ n ≤ 20) ∧
    factorial 22 21 = some (-4249290049419214848) ∧
    factorial 22 21 ≠ some ((Nat.factorial 21 : Nat) : Int) := by
  refine ⟨?_, factorial_21, ?_⟩
  · rw [factorial_nat n hn fuel hf]
    constructor
    · intro h
      have hw : wrap (n.factorial : Int) = (n.factorial : Int) := Option.some.inj h
      by_contra hlt
      have hbig := factorial_large_not_isInt n (by omega)
      have hle := wrap_le_maxInt (n.factorial : Int)
      rw [hw] at hle
      omega
    · intro h
      rw [wrap_of_isInt (factorial_small_isInt n h)]
  · rw [factorial_21]
    intro h
    have hbig := factorial_large_not_isInt 21 (le_refl 21)
    rw [← Option.some.inj h] at hbig
    exact absurd hbig (by decide)

theorem factorial_exact_iff_le_20_witness :
    ((25 : Nat) : Int) ≤ maxInt ∧ 25 < 26 ∧
    (factorial 26 ((25 : Nat) : Int) = some ((Nat.factorial 25 : Nat) : Int) ↔ 25 ≤ 20) :=
  ⟨by decide, by decide, (factorial_exact_iff_le_20 25 (by decide) 26 (by decide)).1⟩

/-! ## The memory model of the transformers -/

theorem take_succ_set (l : List Int) (n : Nat) (v : Int) (h : n < l.length) :
    (l.set n v).take (n + 1) = l.take n ++ [v] := by
  apply List.ext_getElem?
  intro i
  rw [List.getElem?_take]
  by_cases hi : i < n
  · rw [if_pos (by omega), List.getElem?_set_ne (by omega),
      List.getElem?_append_left (by simp; omega), List.getElem?_take_of_lt hi]
  · by_cases hn : i = n
    · subst hn
      rw [if_pos (by omega), List.getElem?_set_self h,
        List.getElem?_append_right (by simp)]
      simp [Nat.min_eq_left (Nat.le_of_lt h)]
    · rw [if_neg (by omega), List.getElem?_append_right (by simp; omega)]
      simp [Nat.min_eq_left (Nat.le_of_lt h)]
      omega

theorem take_succ_append (l r : List Int) (v : Int) (n : Nat) (h : l.length = n) :
    (l ++ [v] ++ r).take (n + 1) = l ++ [v] := by
  apply List.take_left'
  simp [h]

theorem appendSlice_spec (grow : Nat → Nat) (m : Memory) (out : Slice) (v : Int)
    (hv : validSlice m out) :
    (appendSlice grow m out v).1.slices = m.slices ∧
    m.arrays.length ≤ (appendSlice grow m out v).1.arrays.length ∧
    (∀ a : Nat, a < m.arrays.length → a ≠ out.arr →
      (appendSlice grow m out v).1.arrays[a]? = m.arrays[a]?) ∧
    ((appendSlice grow m out v).2.arr = out.arr ∨
      (appendSlice grow m out v).2.arr = m.arrays.length) ∧
    validSlice (appendSlice grow m out v).1 (appendSlice grow m out v).2 ∧
    sliceElems (appendSlice grow m out v).1 (appendSlice grow m out v).2 =
      sliceElems m out ++ [v] := by
  obtain ⟨harr, hlen⟩ := hv
  unfold appendSlice
  by_cases hc : out.len < (backing m out).length
  · rw [if_pos hc]
    have hb : backing ⟨m.arrays.set out.arr ((backing m out).set out.len v), m.slices⟩
        ⟨out.arr, out.len + 1⟩ = (backing m out).set out.len v := by
      simp [backing, harr]
    refine ⟨rfl, by simp, fun a _ hne => ?_, Or.inl rfl, ⟨by simpa using harr, ?_⟩, ?_⟩
    · simp [List.getElem?_set_ne (Ne.symm hne)]
    · rw [hb]
      simpa using hc
    · simp only [sliceElems]
      rw [hb]
      exact take_succ_set _ _ _ hc
  · rw [if_neg hc]
    have hb : backing ⟨m.arrays ++
        [sliceElems m out ++ [v] ++ List.replicate (grow (backing m out).length) 0], m.slices⟩
        ⟨m.arrays.length, out.len + 1⟩ =
        sliceElems m out ++ [v] ++ List.replicate (grow (backing m out).length) 0 := by
      simp [backing]
    have hl : (sliceElems m out).length = out.len := by
      simp [sliceElems, hlen]
    refine ⟨rfl, by simp, fun a ha _ => ?_, Or.inr rfl, ⟨by simp, ?_⟩, ?_⟩
    · simp [List.getElem?_append_left ha]
    · rw [hb]
      simp [hl]
    · have he : sliceElems ⟨m.arrays ++
          [sliceElems m out ++ [v] ++ List.replicate (grow (backing m out).length) 0], m.slices⟩
          ⟨m.arrays.length, out.len + 1⟩ =
          (sliceElems m out ++ [v] ++
            List.replicate (grow (backing m out).length) 0).take (out.len + 1) := by
        simp only [sliceElems] at hb ⊢
        rw [hb]
      rw [he]
      exact take_succ_append _ _ _ _ hl

theorem backing_of_frame (m m' : Memory) (s : Slice) (hs : s.arr < m.arrays.length)
    (hframe : ∀ a : Nat, a < m.arrays.length → m'.arrays[a]? = m.arrays[a]?) :
    backing m' s = backing m s := by
  unfold backing
  rw [hframe s.arr hs]

theorem transform_loop_inv (grow : Nat → Nat) (m : Memory) (s : Slice) (f : Int → Int)
    (hs : validSlice m s) (i : Nat) (hi : i ≤ s.len) :
    ∃ m' out, (List.range i).foldl (transformStep grow f s) (some (emptySlice m)) =
        some (m', out) ∧
      m'.slices = m.slices ∧ m.arrays.length ≤ out.arr ∧ validSlice m' out ∧
      (∀ a : Nat, a < m.arrays.length → m'.arrays[a]? = m.arrays[a]?) ∧
      sliceElems m' out = ((sliceElems m s).take i).map f := by
  induction i with
  | zero =>
    refine ⟨_, _, rfl, rfl, le_refl _, ⟨by simp [emptySlice], by simp [emptySlice]⟩,
      fun a ha => ?_, ?_⟩
    · simp [emptySlice, List.getElem?_append_left ha]
    · simp [emptySlice, sliceElems]
  | succ i ih =>
    obtain ⟨m1, out1, hrun, hsl, hfresh, hvalid, hframe, helems⟩ := ih (by omega)
    have hb : backing m1 s = backing m s := backing_of_frame m m1 s hs.1 hframe
    have hlt : i < (backing m s).length := by
      have := hs.2
      omega
    have hval : (backing m s)[i]? = some ((backing m s)[i]) := List.getElem?_eq_getElem hlt
    have hstep : (List.range (i + 1)).foldl (transformStep grow f s) (some (emptySlice m)) =
        some (appendSlice grow m1 out1 (f ((backing m s)[i]))) := by
      rw [List.range_succ, List.foldl_append, hrun]
      simp only [List.foldl_cons, List.foldl_nil, transformStep, hb, hval]
    obtain ⟨asl, alen, aframe, aarr, avalid, aelems⟩ :=
      appendSlice_spec grow m1 out1 (f ((backing m s)[i])) hvalid
    have hout1 : out1.arr < m1.arrays.length := hvalid.1
    refine ⟨(appendSlice grow m1 out1 (f ((backing m s)[i]))).1,
      (appendSlice grow m1 out1 (f ((backing m s)[i]))).2, hstep, asl.trans hsl, ?_, avalid,
      fun a ha => ?_, ?_⟩
    · rcases aarr with h | h
      · rw [h]
        exact hfresh
      · rw [h]
        omega
    · rw [aframe a (by omega) (by omega), hframe a ha]
    · have hE : (sliceElems m s)[i]? = some ((backing m s)[i]) := by
        unfold sliceElems
        rw [List.getElem?_take_of_lt (by omega), hval]
      rw [aelems, helems, List.take_succ, hE]
      simp

theorem transform_loop_run (grow : Nat → Nat) (m : Memory) (s : Slice) (f : Int → Int)
    (hs : validSlice m s) :
    ∃ m' out, (List.range s.len).foldl (transformStep grow f s) (some (emptySlice m)) =
        some (m', out) ∧
      m'.slices = m.slices ∧ m.arrays.length ≤ out.arr ∧ validSlice m' out ∧
      (∀ a : Nat, a < m.arrays.length → m'.arrays[a]? = m.arrays[a]?) ∧
      sliceElems m' out = (sliceElems m s).map f := by
  obtain ⟨m', out, hrun, hsl, hfresh, hvalid, hframe, helems⟩ :=
    transform_loop_inv grow m s f hs s.len (le_refl _)
  refine ⟨m', out, hrun, hsl, hfresh, hvalid, hframe, ?_⟩
  rw [helems, List.take_of_length_le]
  unfold sliceElems
  exact List.length_take_le _ _

/-- Claim C11: the transformer never mutates its input. For every memory in which
the pointer argument refers to a well-formed slice `s`, and every transform `f`
that writes nothing, `transformNums` and `transformNumbers` return, and after the
call every slice variable and every backing array that existed before the call
is as it was, so `s` has the same length and elements; the slice returned has a
backing array that did not exist before the call, and it holds the transformed
elements. -/
theorem transform_keeps_input (grow : Nat → Nat) (m : Memory) (nums : Nat) (s : Slice)
    (f : Int → Int) (hp : m.slices[nums]? = some s) (hs : validSlice m s) :
    (∃ m' out, transformNumsM grow m nums f = some (m', out) ∧
      m'.slices = m.slices ∧
      (∀ a : Nat, a < m.arrays.length → m'.arrays[a]? = m.arrays[a]?) ∧
      m'.slices[nums]? = some s ∧ sliceElems m' s = sliceElems m s ∧
      m.arrays.length ≤ out.arr ∧ out.arr ≠ s.arr ∧
      sliceElems m' out = transformNums (sliceElems m s) f) ∧
    (∃ m' out, transformNumbersM grow m nums f = some (m', out) ∧
      m'.slices = m.slices ∧
      (∀ a : Nat, a < m.arrays.length → m'.arrays[a]? = m.arrays[a]?) ∧
      m'.slices[nums]? = some s ∧ sliceElems m' s = sliceElems m s ∧
      m.arrays.length ≤ out.arr ∧ out.arr ≠ s.arr ∧
      sliceElems m' out = transformNumbers (sliceElems m s) f) := by
  obtain ⟨m', out, hrun, hsl, hfresh, _, hframe, helems⟩ := transform_loop_run grow m s f hs
  have hsame : sliceElems m' s = sliceElems m s := by
    unfold sliceElems
    rw [backing_of_frame m m' s hs.1 hframe]
  have hne : out.arr ≠ s.arr := by
    have := hs.1
    omega
  constructor
  · refine ⟨m', out, ?_, hsl, hframe, by rw [hsl, hp], hsame, hfresh, hne, ?_⟩
    · simp only [transformNumsM, hp]
      exact hrun
    · rw [helems, transformNums_eq_map]
  · refine ⟨m', out, ?_, hsl, hframe, by rw [hsl, hp], hsame, hfresh, hne, ?_⟩
    · simp only [transformNumbersM, hp]
      exact hrun
    · rw [helems, transformNumbers_eq_map]

theorem transform_keeps_input_witness :
    (⟨[[1, 2, 3]], [⟨0, 3⟩]⟩ : Memory).slices[0]? = some ⟨0, 3⟩ ∧
    validSlice ⟨[[1, 2, 3]], [⟨0, 3⟩]⟩ ⟨0, 3⟩ ∧
    ∃ m' out, transformNumsM (fun c => c) ⟨[[1, 2, 3]], [⟨0, 3⟩]⟩ 0 double = some (m', out) ∧
      m'.slices = [⟨0, 3⟩] ∧ sliceElems m' ⟨0, 3⟩ = [1, 2, 3] ∧
      sliceElems m' out = [2, 4, 6] := by
  refine ⟨by decide, by decide, ?_⟩
  obtain ⟨m', out, hrun, hsl, _, _, hsame, _, _, helems⟩ :=
    (transform_keeps_input (fun c => c) ⟨[[1, 2, 3]], [⟨0, 3⟩]⟩ 0 ⟨0, 3⟩ double
      (by decide) (by decide)).1
  exact ⟨m', out, hrun, hsl, hsame, helems⟩

end GoFunctions
